import Mathlib

/-!
Verification of the repository-analysis pipeline (candidate selection,
symbol extraction, chunking, summarization, report validation).

The Python sources are shallowly embedded: pure functions become Lean
functions, the per-line scanners become explicit folds over a state,
external collaborators (the token counter, the language-model call,
`json.loads`) become function parameters, and Python floats are modelled
as exact rationals.
-/

/-- ASCII whitespace, matching the characters recognised by the regex
class `\s` and by `str.strip` for the inputs considered here. -/
def isPySpace (c : Char) : Bool :=
  c = ' ' || c = '\t' || c = '\n' || c = '\r' || c = '\x0b' || c = '\x0c'

/-- Characters matched by the regex class `[A-Za-z0-9_]`. -/
def isWordChar (c : Char) : Bool :=
  c.isAlphanum || c = '_'

/-- Helper for `splitlines`: scan the character list, emitting a line at
each line boundary (`\n`, `\r\n` or `\r`); a trailing fragment is emitted
only when non-empty, so a trailing newline adds no empty final line. -/
def splitlinesAux : List Char → List Char → List String
  | [], acc => if acc.isEmpty then [] else [String.mk acc.reverse]
  | '\r' :: '\n' :: rest, acc => String.mk acc.reverse :: splitlinesAux rest []
  | '\r' :: rest, acc => String.mk acc.reverse :: splitlinesAux rest []
  | '\n' :: rest, acc => String.mk acc.reverse :: splitlinesAux rest []
  | c :: rest, acc => splitlinesAux rest (c :: acc)

/-- Model of Python `str.splitlines` (restricted to the newline
conventions `\n`, `\r\n`, `\r`). -/
def splitlines (s : String) : List String :=
  splitlinesAux s.data []

/-! ## report.py: `_validate_report` -/

/-- JSON values (numbers idealised as integers; no claim depends on the
numeric payload). -/
inductive Json where
  | null
  | bool (b : Bool)
  | num (n : Int)
  | str (s : String)
  | arr (elems : List Json)
  | obj (entries : List (String × Json))

/-- The exceptions `_validate_report` can raise: the typed
`ReportGenerationError`, or a `TypeError` coming out of the `in`
membership test on a non-container value. -/
inductive PyFailure where
  | reportGenerationError (msg : String)
  | typeError
deriving DecidableEq

/-- Whether a failure is the typed report-generation failure. -/
def PyFailure.isReportGenError : PyFailure → Bool
  | .reportGenerationError _ => true
  | .typeError => false

/-- Python `needle in hay` on two strings: substring test. -/
def strContainsSub (hay needle : String) : Bool :=
  decide (needle.data <:+: hay.data)

/-- Python equality of a JSON value with a fixed string: true exactly
for the equal string (a Python `str` compares unequal to every
non-string value). -/
def Json.eqStr (key : String) : Json → Bool
  | .str s => s == key
  | _ => false

/-- Python `key in data` on a parsed JSON value: key lookup on a dict,
element equality on a list, substring test on a string, and a
`TypeError` (modelled as `none`) on `null`, booleans and numbers. -/
def jsonContains (key : String) : Json → Option Bool
  | .obj entries => some (entries.any fun kv => kv.1 == key)
  | .arr elems => some (elems.any fun e => e.eqStr key)
  | .str s => some (strContainsSub s key)
  | _ => none

/-- Whether the value supports the `in` membership test. -/
def Json.isContainer : Json → Bool
  | .obj _ => true
  | .arr _ => true
  | .str _ => true
  | _ => false

/-- Message of the invalid-JSON failure. -/
def invalidJsonMsg : String := "Model returned invalid JSON"

/-- Message of the missing-keys failure. -/
def missingKeysMsg : String :=
  "Model response missing required keys feature_analysis or execution_plan_suggestion."

/-- Body of `_validate_report` after `json.loads` succeeded: evaluate
`"feature_analysis" not in data or "execution_plan_suggestion" not in
data` left to right with Python short-circuiting, raising the typed
failure when a key is missing and returning the data unchanged
otherwise; a membership test on a non-container raises `TypeError`. -/
def _validate_report (data : Json) : Except PyFailure Json :=
  match jsonContains "feature_analysis" data with
  | none => .error .typeError
  | some false => .error (.reportGenerationError missingKeysMsg)
  | some true =>
    match jsonContains "execution_plan_suggestion" data with
    | none => .error .typeError
    | some false => .error (.reportGenerationError missingKeysMsg)
    | some true => .ok data

/-- `_validate_report` on raw text, with `json.loads` supplied as an
external collaborator returning `none` on unparseable input. -/
def validateWithLoads (loads : String → Option Json) (text : String) :
    Except PyFailure Json :=
  match loads text with
  | none => .error (.reportGenerationError invalidJsonMsg)
  | some data => _validate_report data

/-- A report object carrying both required keys, used to instantiate
universally quantified theorems. -/
def demoReport : Json :=
  Json.obj [("feature_analysis", Json.arr []),
            ("execution_plan_suggestion", Json.str "run it"),
            ("extra", Json.num 7)]

/-- A `loads` collaborator that parses every text to `demoReport`. -/
def demoLoads : String → Option Json := fun _ => some demoReport

/-! ## codebase.py: candidate selection -/

/-- The `SOURCE_EXTENSIONS` mapping from lowercase extension to language. -/
def SOURCE_EXTENSIONS : List (String × String) :=
  [(".py", "Python"), (".ts", "TypeScript"), (".tsx", "TypeScript"),
   (".js", "JavaScript"), (".jsx", "JavaScript"), (".java", "Java"),
   (".go", "Go"), (".rs", "Rust"), (".cs", "C#"), (".rb", "Ruby"),
   (".php", "PHP"), (".swift", "Swift"), (".kt", "Kotlin"), (".c", "C"),
   (".h", "C"), (".cpp", "C++"), (".hpp", "C++"), (".m", "Objective-C"),
   (".scala", "Scala"), (".sql", "SQL"), (".yaml", "YAML"),
   (".yml", "YAML"), (".json", "JSON"), (".md", "Markdown")]

/-- The `SKIP_EXTENSIONS` binary/noise extension set. -/
def SKIP_EXTENSIONS : List String :=
  [".png", ".jpg", ".jpeg", ".gif", ".bmp", ".ico", ".svg", ".pdf",
   ".lock", ".bin", ".exe", ".dll", ".so", ".dylib"]

/-- The `SKIP_DIR_NAMES` noise-directory set. -/
def SKIP_DIR_NAMES : List String :=
  ["__pycache__", ".git", ".hg", ".svn", ".venv", "venv", "env",
   "node_modules", "dist", "build", "out", "coverage", ".idea",
   ".vscode", ".pytest_cache"]

/-- `pathlib.PurePath.suffix` of a file name: the final component from
the last dot, empty when there is no dot, when the only dot is the
leading character (hidden files) or when the dot is the last character. -/
def pathSuffix (name : String) : String :=
  let cs := name.data
  match cs.reverse.findIdx? (fun c => c = '.') with
  | none => ""
  | some j =>
    let i := cs.length - 1 - j
    if 0 < i ∧ i < cs.length - 1 then String.mk (cs.drop i) else ""

/-- A directory entry produced by `root.rglob("*")`: its path parts
relative to the root (non-empty), its size in bytes, and whether it is a
regular file. -/
structure FsEntry where
  relParts : List String
  size : Nat
  isFile : Bool
deriving DecidableEq

/-- The configuration fields consumed by candidate selection. -/
structure Settings where
  max_candidate_files : Nat
  max_file_bytes : Nat
deriving DecidableEq

/-- A selected source file (paths kept as lists of segments; the float
weight is modelled as an exact rational). -/
structure FileCandidate where
  relative_path : List String
  language : String
  size_bytes : Nat
  weight : ℚ
deriving DecidableEq

/-- Python `str.lower` (ASCII range), lowercasing each character. -/
def strLower (s : String) : String :=
  String.mk (s.data.map Char.toLower)

/-- Lowercased suffix of the last path segment, as computed by
`file_path.suffix.lower()`. -/
def extOfParts (relParts : List String) : String :=
  strLower (pathSuffix (relParts.getLastD ""))

/-- `iter_source_files`: keep regular files whose suffix is not in
`SKIP_EXTENSIONS` and none of whose full path parts (root parts plus
relative parts) is in `SKIP_DIR_NAMES`. Order of the input is the
traversal (discovery) order and is preserved. -/
def iter_source_files (rootParts : List String) (entries : List FsEntry) :
    List FsEntry :=
  entries.filter fun e =>
    e.isFile
      && !(SKIP_EXTENSIONS.contains (extOfParts e.relParts))
      && !((rootParts ++ e.relParts).any fun part => SKIP_DIR_NAMES.contains part)

/-- Depth of a relative path: `max(len(relative_path.parts) - 1, 0)`. -/
def path_depth (relParts : List String) : Nat :=
  max (relParts.length - 1) 0

/-- The language bonus factor of `compute_weight` (`1.5` for primary
languages, else `1`). -/
def language_bonus (language : String) : ℚ :=
  if ["Python", "TypeScript", "JavaScript"].contains language then 3/2 else 1

/-- The special-location bonus factor of `compute_weight` (`1.2` when a
segment is a conventional source-root name, else `1`). -/
def special_bonus (relParts : List String) : ℚ :=
  if relParts.any (fun segment => ["src", "app", "server", "service"].contains segment)
  then 6/5 else 1

/-- The size factor of `compute_weight`: `1 / (1 + size / 2000)`. -/
def size_score (size : Nat) : ℚ :=
  1 / (1 + (size : ℚ) / 2000)

/-- `compute_weight`: `depth_penalty * size_score * language_bonus *
special_bonus` with float arithmetic idealised as exact rationals. -/
def compute_weight (relParts : List String) (size : Nat) (language : String) : ℚ :=
  (1 / (1 + (path_depth relParts : ℚ))) * size_score size
    * language_bonus language * special_bonus relParts

/-- The loop body of `collect_source_candidates`: drop empty and
oversized files, drop unrecognised extensions, and build the candidate
with its weight, preserving discovery order. -/
def candidate_pool (rootParts : List String) (entries : List FsEntry)
    (settings : Settings) : List FileCandidate :=
  (iter_source_files rootParts entries).filterMap fun e =>
    if e.size = 0 ∨ settings.max_file_bytes < e.size then none
    else
      match SOURCE_EXTENSIONS.lookup (extOfParts e.relParts) with
      | none => none
      | some language =>
        some ⟨e.relParts, language, e.size, compute_weight e.relParts e.size language⟩

/-- The descending-by-weight comparison used by
`candidates.sort(key=lambda c: c.weight, reverse=True)`; a stable sort
with this relation is exactly Python list.sort with reverse=True. -/
def weightGE (a b : FileCandidate) : Bool :=
  decide (b.weight ≤ a.weight)

/-- `collect_source_candidates`: filter, weigh, stable-sort descending
by weight, and truncate to `max_candidate_files`. -/
def collect_source_candidates (rootParts : List String) (entries : List FsEntry)
    (settings : Settings) : List FileCandidate :=
  ((candidate_pool rootParts entries settings).mergeSort weightGE).take
    settings.max_candidate_files

/-! ## codebase.py: symbol extraction -/

/-- A coarse symbol with inferred line range. -/
structure SymbolInfo where
  name : String
  kind : String
  line_start : Nat
  line_end : Nat
deriving DecidableEq

/-- Does the character list start with the literal word `w`? -/
def startsWithLit (w : String) (cs : List Char) : Bool :=
  cs.take w.length == w.data

/-- Consume a literal keyword followed by at least one whitespace
character (the regex fragment `kw\s+`), returning the residue after the
greedy whitespace, or `none` when the fragment does not match here. -/
def stripKwSpace (w : String) (cs : List Char) : Option (List Char) :=
  if startsWithLit w cs then
    let rest := cs.drop w.length
    if (rest.takeWhile isPySpace).isEmpty then none
    else some (rest.dropWhile isPySpace)
  else none

/-- The regex fragment `([A-Za-z0-9_]+)\s*\(`: a captured identifier,
optional whitespace, then an opening parenthesis. -/
def nameThenParen (cs : List Char) : Option String :=
  let name := cs.takeWhile isWordChar
  if name.isEmpty then none
  else
    match (cs.dropWhile isWordChar).dropWhile isPySpace with
    | '(' :: _ => some (String.mk name)
    | _ => none

/-- `(async\s+)?` then `([A-Za-z0-9_]+)\s*\(`, with the regex backtracking
on the optional greedy group. -/
def tryAsyncNameParen (cs : List Char) : Option String :=
  match stripKwSpace "async" cs with
  | some rest => (nameThenParen rest).orElse fun _ => nameThenParen cs
  | none => nameThenParen cs

/-- `(static\s+)?(async\s+)?([A-Za-z0-9_]+)\s*\(` with backtracking. -/
def tryStaticAsyncNameParen (cs : List Char) : Option String :=
  match stripKwSpace "static" cs with
  | some rest => (tryAsyncNameParen rest).orElse fun _ => tryAsyncNameParen cs
  | none => tryAsyncNameParen cs

/-- `(public|protected|private)?\s*` in front of a continuation: try the
modifier (plus greedy whitespace) first, fall back without it. -/
def withOptModifier (tail : List Char → Option String) (cs : List Char) :
    Option String :=
  let afterMod :=
    if startsWithLit "public" cs then some ((cs.drop 6).dropWhile isPySpace)
    else if startsWithLit "protected" cs then some ((cs.drop 9).dropWhile isPySpace)
    else if startsWithLit "private" cs then some ((cs.drop 7).dropWhile isPySpace)
    else none
  match afterMod with
  | some rest => (tail rest).orElse fun _ => tail cs
  | none => tail cs

/-- `TS_METHOD_RE.match(line)`, returning the captured method name
(group 4): `^\s*(public|protected|private)?\s*(static\s+)?(async\s+)?
([A-Za-z0-9_]+)\s*\(`. -/
def matchTsMethod (line : String) : Option String :=
  withOptModifier tryStaticAsyncNameParen (line.data.dropWhile isPySpace)

/-- The tail of `TS_ARROW_METHOD_RE` after the optional modifier and
static groups: `([A-Za-z0-9_]+)\s*=\s*(async\s+)?\(`. -/
def arrowNameTail (cs : List Char) : Option String :=
  let name := cs.takeWhile isWordChar
  if name.isEmpty then none
  else
    match (cs.dropWhile isWordChar).dropWhile isPySpace with
    | '=' :: rest =>
      let rest := rest.dropWhile isPySpace
      let done :=
        match stripKwSpace "async" rest with
        | some rest2 =>
          (match rest2 with
           | '(' :: _ => true
           | _ =>
             match rest with
             | '(' :: _ => true
             | _ => false)
        | none =>
          match rest with
          | '(' :: _ => true
          | _ => false
      if done then some (String.mk name) else none
    | _ => none

/-- `(static\s+)?` then the arrow tail, with backtracking. -/
def tryStaticArrow (cs : List Char) : Option String :=
  match stripKwSpace "static" cs with
  | some rest => (arrowNameTail rest).orElse fun _ => arrowNameTail cs
  | none => arrowNameTail cs

/-- `TS_ARROW_METHOD_RE.match(line)`, returning the captured name
(group 3). -/
def matchTsArrow (line : String) : Option String :=
  withOptModifier tryStaticArrow (line.data.dropWhile isPySpace)

/-- One attempt of `CLASS_RE` (`\bclass\s+([A-Za-z0-9_]+)`) at the
current position, ignoring the word boundary (checked by the caller). -/
def tryClassHere (cs : List Char) : Option String :=
  if startsWithLit "class" cs then
    let rest := cs.drop 5
    if (rest.takeWhile isPySpace).isEmpty then none
    else
      let name := (rest.dropWhile isPySpace).takeWhile isWordChar
      if name.isEmpty then none else some (String.mk name)
  else none

/-- `CLASS_RE.search(line)`: try every position left to right, requiring
a word boundary before the literal `class`. -/
def searchClassAux : Option Char → List Char → Option String
  | _, [] => none
  | prev, c :: rest =>
    let boundaryOk :=
      match prev with
      | none => true
      | some p => !isWordChar p
    match (if boundaryOk then tryClassHere (c :: rest) else none) with
    | some n => some n
    | none => searchClassAux (some c) rest

/-- `CLASS_RE.search` on a line. -/
def searchClass (line : String) : Option String :=
  searchClassAux none line.data

/-- One attempt of `TS_FUNCTION_RE` (`\bfunction\s+([A-Za-z0-9_]+)\s*\(`)
at the current position, ignoring the word boundary. -/
def tryFunctionHere (cs : List Char) : Option String :=
  if startsWithLit "function" cs then
    let rest := cs.drop 8
    if (rest.takeWhile isPySpace).isEmpty then none
    else nameThenParen (rest.dropWhile isPySpace)
  else none

/-- `TS_FUNCTION_RE.search(line)`: try every position left to right with
a word boundary before `function`. -/
def searchFunctionAux : Option Char → List Char → Option String
  | _, [] => none
  | prev, c :: rest =>
    let boundaryOk :=
      match prev with
      | none => true
      | some p => !isWordChar p
    match (if boundaryOk then tryFunctionHere (c :: rest) else none) with
    | some n => some n
    | none => searchFunctionAux (some c) rest

/-- `TS_FUNCTION_RE.search` on a line. -/
def searchFunction (line : String) : Option String :=
  searchFunctionAux none line.data

/-- Scanner state of `_extract_typescript_symbols`: emitted symbols, the
running brace depth, and the class stack (top at the head) of pairs
(name, depth at which the class closes). -/
structure TsState where
  symbols : List SymbolInfo
  brace_depth : Int
  class_stack : List (String × Int)
deriving DecidableEq

/-- Pop every class whose recorded closing depth has been reached or
passed (`while class_stack and brace_depth < class_stack[-1][1]`). -/
def popClosedClasses (depth : Int) : List (String × Int) → List (String × Int)
  | [] => []
  | (c, d) :: rest =>
    if depth < d then popClosedClasses depth rest else (c, d) :: rest

/-- The body of the `_extract_typescript_symbols` loop for one line. -/
def tsStep (st : TsState) (p : Nat × String) : TsState :=
  let idx := p.1
  let line := p.2
  let braceDelta : Int := (line.data.count '{' : Int) - (line.data.count '}' : Int)
  let stack :=
    match searchClass line with
    | some className => (className, st.brace_depth + max braceDelta 1) :: st.class_stack
    | none => st.class_stack
  let currentClass := stack.head?.map Prod.fst
  let syms := st.symbols
  let syms :=
    match matchTsMethod line, currentClass with
    | some methodName, some c =>
      syms ++ [⟨c ++ "." ++ methodName, "method", idx, idx⟩]
    | _, _ => syms
  let syms :=
    match matchTsArrow line, currentClass with
    | some methodName, some c =>
      syms ++ [⟨c ++ "." ++ methodName, "method", idx, idx⟩]
    | _, _ => syms
  let syms :=
    match searchFunction line with
    | some funcName => syms ++ [⟨funcName, "function", idx, idx⟩]
    | none => syms
  let depth := st.brace_depth + braceDelta
  ⟨syms, depth, popClosedClasses depth stack⟩

/-- `_extract_typescript_symbols`: fold the step over the 1-based
enumerated lines. -/
def _extract_typescript_symbols (lines : List String) : List SymbolInfo :=
  ((List.enumFrom 1 lines).foldl tsStep ⟨[], 0, []⟩).symbols

/-- `PY_DEF_RE.match(line)`: `^\s*def\s+([A-Za-z0-9_]+)\s*\(`. -/
def matchPyDef (line : String) : Option String :=
  let cs := line.data.dropWhile isPySpace
  match stripKwSpace "def" cs with
  | some rest => nameThenParen rest
  | none => none

/-- `PY_CLASS_RE.match(line)`: `^\s*class\s+([A-Za-z0-9_]+)`. -/
def matchPyClass (line : String) : Option String :=
  let cs := line.data.dropWhile isPySpace
  match stripKwSpace "class" cs with
  | some rest =>
    let name := rest.takeWhile isWordChar
    if name.isEmpty then none else some (String.mk name)
  | none => none

/-- Pop every class whose indentation is at or beyond the current
line's (`while class_stack and indent <= class_stack[-1][1]`). -/
def popDedented (indent : Nat) : List (String × Nat) → List (String × Nat)
  | [] => []
  | (c, i) :: rest =>
    if indent ≤ i then popDedented indent rest else (c, i) :: rest

/-- The body of the `_extract_python_symbols` loop for one line: the
indentation is the count of leading whitespace (an empty line therefore
has indentation 0). -/
def pyStep (st : List SymbolInfo × List (String × Nat)) (p : Nat × String) :
    List SymbolInfo × List (String × Nat) :=
  let idx := p.1
  let line := p.2
  let indent := (line.data.takeWhile isPySpace).length
  let stack := popDedented indent st.2
  match matchPyClass line with
  | some className =>
    (st.1 ++ [⟨className, "class", idx, idx⟩], (className, indent) :: stack)
  | none =>
    match matchPyDef line with
    | some funcName =>
      let name :=
        match stack.head? with
        | some top => top.1 ++ "." ++ funcName
        | none => funcName
      (st.1 ++ [⟨name, "function", idx, idx⟩], stack)
    | none => (st.1, stack)

/-- `_extract_python_symbols`: fold the step over the 1-based enumerated
lines. -/
def _extract_python_symbols (lines : List String) : List SymbolInfo :=
  ((List.enumFrom 1 lines).foldl pyStep ([], [])).1

/-- Ascending-by-start comparison used by
`symbols.sort(key=lambda s: s.line_start)` (stable). -/
def startLE (a b : SymbolInfo) : Bool :=
  decide (a.line_start ≤ b.line_start)

/-- The fill-in loop of `_fill_symbol_line_ends` on an already sorted
list: every symbol's end becomes the next start minus one, clamped to
its own start; the last becomes the total line count. -/
def fillEndsPass : List SymbolInfo → Nat → List SymbolInfo
  | [], _ => []
  | [s], total => [{ s with line_end := total }]
  | s :: next :: rest, total =>
    { s with line_end := max s.line_start (next.line_start - 1) }
      :: fillEndsPass (next :: rest) total

/-- `_fill_symbol_line_ends`: stable-sort by start line, then fill in
the end lines. -/
def _fill_symbol_line_ends (symbols : List SymbolInfo) (total_lines : Nat) :
    List SymbolInfo :=
  fillEndsPass (symbols.mergeSort startLE) total_lines

/-! ## summarizer.py: chunking and per-file summarization -/

/-- A token-bounded, line-numbered slice of a file. -/
structure CodeChunk where
  text : String
  start_line : Nat
  end_line : Nat
deriving DecidableEq

/-- Python `f"{n:04}"`: decimal digits left-padded with zeros to width
four (wider numbers are kept whole). -/
def zeroPad4 (n : Nat) : String :=
  let s := toString n
  String.mk (List.replicate (4 - s.length) '0') ++ s

/-- The decorated form of line `line` at 1-based number `n`:
`f"{line_number:04}: {line}"`. -/
def formatLine (n : Nat) (line : String) : String :=
  zeroPad4 n ++ ": " ++ line

/-- The greedy accumulation loop of `_chunk_text`. Arguments after the
token counter, the budget and the total line count: the remaining lines,
the next 1-based line number, the current chunk's decorated lines, their
token total, and the current chunk's start line. -/
def chunkAux (tok : String → Nat) (maxTokens : Nat) (total : Nat) :
    List String → Nat → List String → Nat → Nat → List CodeChunk
  | [], _, cur, _, start =>
    if cur.isEmpty then [] else [⟨String.intercalate "\n" cur, start, total⟩]
  | line :: rest, n, cur, curTok, start =>
    if !cur.isEmpty && decide (maxTokens < curTok + tok (formatLine n line ++ "\n")) then
      ⟨String.intercalate "\n" cur, start, n - 1⟩
        :: chunkAux tok maxTokens total rest (n + 1) [formatLine n line]
             (tok (formatLine n line ++ "\n")) n
    else
      chunkAux tok maxTokens total rest (n + 1) (cur ++ [formatLine n line])
        (curTok + tok (formatLine n line ++ "\n")) (if cur.isEmpty then n else start)

/-- `GPTSummarizer._chunk_text`, with the token counter (the composition
of `tiktoken` encode and `len`) supplied as an external collaborator. -/
def _chunk_text (tok : String → Nat) (maxTokens : Nat) (text : String) :
    List CodeChunk :=
  if text = "" then []
  else
    let lines := splitlines text
    chunkAux tok maxTokens lines.length lines 1 [] 0 1

/-- The decorated form of line number `n` of a file given as its line
list. -/
def decorate (lines : List String) (n : Nat) : String :=
  formatLine n (lines.getD (n - 1) "")

/-- The decorated lines of the inclusive line range `[lo, hi]`. -/
def rangeLines (lines : List String) (lo hi : Nat) : List String :=
  (List.range' lo (hi + 1 - lo)).map (decorate lines)

/-- The token total of a chunk: each decorated line of its range plus a
trailing newline, measured by the token counter, summed. -/
def chunkTokens (tok : String → Nat) (lines : List String) (c : CodeChunk) : Nat :=
  ((rangeLines lines c.start_line c.end_line).map fun s => tok (s ++ "\n")).sum

/-- The chunk list partitions the inclusive line range `[lo, hi]`:
chunks are contiguous, ascending, gap-free and overlap-free, and they
end exactly at `hi`. -/
def coversRange : Nat → Nat → List CodeChunk → Prop
  | lo, hi, [] => lo = hi + 1
  | lo, hi, c :: rest =>
    c.start_line = lo ∧ lo ≤ c.end_line ∧ c.end_line ≤ hi
      ∧ coversRange (c.end_line + 1) hi rest

instance coversRangeDecidable :
    ∀ (lo hi : Nat) (cs : List CodeChunk), Decidable (coversRange lo hi cs)
  | _, _, [] => by unfold coversRange; exact inferInstance
  | lo, hi, c :: rest =>
    have : Decidable (coversRange (c.end_line + 1) hi rest) :=
      coversRangeDecidable _ _ _
    by unfold coversRange; exact inferInstance

/-- One per-file summary. -/
structure FileSummary where
  relative_path : List String
  language : String
  summary : String
  symbols : List SymbolInfo
deriving DecidableEq

/-- `GPTSummarizer._combine_chunk_summaries`: a single summary is used
verbatim; otherwise a bulleted key-points list. -/
def _combine_chunk_summaries (chunk_summaries : List String) : String :=
  match chunk_summaries with
  | [s] => s
  | l => "Key points:\n" ++ String.intercalate "\n" (l.map fun s => "- " ++ s.trim)

/-- The loop body of `GPTSummarizer.summarize_candidates` for one
candidate, with reading a file, extracting its symbols and the per-chunk
language-model call supplied as external collaborators; a failing call
(`none`) models a raised `OpenAIError`, whose summary is dropped while
processing continues; a file with no chunks or no surviving summary
yields no `FileSummary` (`none`). -/
def summarize_one (tok : String → Nat) (maxTokens : Nat)
    (readText : FileCandidate → String)
    (extractSymbols : FileCandidate → List SymbolInfo)
    (call : FileCandidate → CodeChunk → Option String)
    (candidate : FileCandidate) : Option FileSummary :=
  let text := readText candidate
  let chunks := _chunk_text tok maxTokens text
  if chunks.isEmpty then none
  else
    let symbols := extractSymbols candidate
    let chunkSummaries := chunks.filterMap (call candidate)
    if chunkSummaries.isEmpty then none
    else
      some ⟨candidate.relative_path, candidate.language,
            _combine_chunk_summaries chunkSummaries, symbols⟩

/-- `GPTSummarizer.summarize_candidates`: process candidates in order,
collecting the per-file summaries that survive. -/
def summarize_candidates (tok : String → Nat) (maxTokens : Nat)
    (readText : FileCandidate → String)
    (extractSymbols : FileCandidate → List SymbolInfo)
    (call : FileCandidate → CodeChunk → Option String)
    (candidates : List FileCandidate) : List FileSummary :=
  candidates.filterMap (summarize_one tok maxTokens readText extractSymbols call)

/-! ## Concrete instances used to instantiate quantified theorems -/

/-- A TypeScript class with two methods. -/
def tsClassExample : List String :=
  ["class Foo \x7b", "  m1() \x7b", "  \x7d", "  m2() \x7b", "  \x7d", "\x7d"]

/-- A top-level TypeScript function outside any class. -/
def tsFunctionExample : List String :=
  ["function topLevel() \x7b", "\x7d"]

/-- A Python class whose body contains a completely empty line between
two method definitions. -/
def pyBlankLineExample : List String :=
  ["class A:", "    def m1(self):", "", "    def m2(self):"]

/-- A candidate whose every chunk summarization fails. -/
def demoFailCandidate : FileCandidate := ⟨["a.py"], "Fail", 3, 1⟩

/-- A candidate whose chunk summarizations succeed. -/
def demoOkCandidate : FileCandidate := ⟨["b.py"], "Python", 3, 1⟩

/-- A per-chunk language-model collaborator failing exactly on the
failing candidate. -/
def demoCall : FileCandidate → CodeChunk → Option String :=
  fun c _ => if c.language = "Fail" then none else some "summary"

/-- A reader giving every candidate a one-line body. -/
def demoReadText : FileCandidate → String := fun _ => "pass"

/-- A token counter measuring character length. -/
def lengthTok : String → Nat := fun s => s.length

/-- Whether a JSON value is a top-level mapping (a Python dict). -/
def Json.isObj : Json → Bool
  | .obj _ => true
  | _ => false

/-- The array report of claim C10: valid JSON whose elements include
both required key strings, yet not a mapping. -/
def arrayReport : Json :=
  Json.arr [Json.str "feature_analysis", Json.str "execution_plan_suggestion",
            Json.num 3]

/-- The per-chunk guarantee of the chunker: the chunk is within the
token budget unless it is a single line whose own decorated cost exceeds
the budget, and its text is exactly the decorated lines of its range
joined by newlines (no line dropped or altered). -/
def chunkGood (tok : String → Nat) (maxTokens : Nat) (lines : List String)
    (c : CodeChunk) : Prop :=
  (chunkTokens tok lines c ≤ maxTokens
      ∨ (c.start_line = c.end_line
            ∧ maxTokens < tok (decorate lines c.start_line ++ "\n")))
    ∧ c.text = String.intercalate "\n" (rangeLines lines c.start_line c.end_line)

/-! ## Theorems -/

/-- C1 counterexample: extracting a class with two methods yields only
the two qualified method symbols; the class itself is never recorded by
the brace-scoped extractor, so the claimed symbol set
`{Foo, Foo.m1, Foo.m2}` is wrong. -/
theorem C1_class_symbol_missing :
    (_extract_typescript_symbols tsClassExample).map SymbolInfo.name
        = ["Foo.m1", "Foo.m2"]
      ∧ ((_extract_typescript_symbols tsClassExample).map SymbolInfo.name).contains
          "Foo" = false := by
  constructor
  · rfl
  · rfl

/-- C1 (amended): for brace-scoped symbol extraction, a class containing
two methods yields exactly the qualified method symbols
`{Foo.m1, Foo.m2}` of kind `method` (the class itself is not recorded),
and a top-level function outside any class yields kind `function` with
an unqualified name. -/
theorem C1_ts_extraction_amended :
    _extract_typescript_symbols tsClassExample
        = [⟨"Foo.m1", "method", 2, 2⟩, ⟨"Foo.m2", "method", 4, 4⟩]
      ∧ _extract_typescript_symbols tsFunctionExample
        = [⟨"topLevel", "function", 1, 1⟩] := by
  constructor
  · rfl
  · rfl

/-- C10: `_validate_report` checks the required keys with a membership
test, so a valid-JSON array containing both key strings passes
validation and is returned unchanged even though it is not a top-level
mapping. -/
theorem C10_array_passes_validation :
    _validate_report arrayReport = Except.ok arrayReport
      ∧ arrayReport.isObj = false := by
  constructor
  · rfl
  · rfl

/-- C2 counterexample: `42` is valid JSON lacking both required keys,
yet `_validate_report` raises a `TypeError` from the membership test on
an integer rather than the typed report-generation failure, so a failure
other than the typed one escapes `validate`. -/
theorem C2_scalar_json_type_error :
    _validate_report (Json.num 42) = Except.error PyFailure.typeError
      ∧ PyFailure.typeError.isReportGenError = false := by
  constructor
  · rfl
  · rfl

theorem jsonContains_of_container (key : String) (data : Json)
    (h : data.isContainer = true) : ∃ b, jsonContains key data = some b := by
  cases data <;> simp [Json.isContainer] at h <;> exact ⟨_, rfl⟩

theorem validate_of_contains (data : Json) (b1 b2 : Bool)
    (h1 : jsonContains "feature_analysis" data = some b1)
    (h2 : jsonContains "execution_plan_suggestion" data = some b2) :
    _validate_report data =
      if b1 then
        if b2 then Except.ok data
        else Except.error (.reportGenerationError missingKeysMsg)
      else Except.error (.reportGenerationError missingKeysMsg) := by
  unfold _validate_report
  rw [h1]
  cases b1
  · simp
  · rw [h2]
    cases b2 <;> simp

/-- C2 (amended): `validate` raises the typed report-generation failure
on unparseable input, and on parsed values supporting membership
(strings, arrays, objects) that lack a required key; it returns the
parsed value unchanged exactly when both required keys are found,
regardless of extra keys. However, for scalar JSON values (numbers,
booleans, null) the membership test raises a `TypeError`, which escapes
`validate` as a failure that is not the typed one. -/
theorem C2_validate_characterization (loads : String → Option Json) (text : String) :
    (loads text = none →
      validateWithLoads loads text
        = Except.error (.reportGenerationError invalidJsonMsg))
      ∧ ∀ data, loads text = some data →
          (data.isContainer = false →
            validateWithLoads loads text = Except.error PyFailure.typeError)
          ∧ (data.isContainer = true →
              ((validateWithLoads loads text = Except.ok data) ↔
                (jsonContains "feature_analysis" data = some true
                  ∧ jsonContains "execution_plan_suggestion" data = some true))
              ∧ (validateWithLoads loads text = Except.ok data
                  ∨ validateWithLoads loads text
                      = Except.error (.reportGenerationError missingKeysMsg))) := by
  constructor
  · intro h
    simp [validateWithLoads, h]
  · intro data h
    have hv : validateWithLoads loads text = _validate_report data := by
      simp [validateWithLoads, h]
    constructor
    · intro hc
      rw [hv]
      cases data <;> simp [Json.isContainer] at hc ⊢ <;> rfl
    · intro hc
      obtain ⟨b1, h1⟩ := jsonContains_of_container "feature_analysis" data hc
      obtain ⟨b2, h2⟩ := jsonContains_of_container "execution_plan_suggestion" data hc
      rw [hv, validate_of_contains data b1 b2 h1 h2, h1, h2]
      cases b1 <;> cases b2 <;> simp

theorem C2_validate_characterization_witness :
    validateWithLoads demoLoads "raw" = Except.ok demoReport :=
  (((C2_validate_characterization demoLoads "raw").2 demoReport rfl).2 rfl).1.mpr
    ⟨by decide, by decide⟩

theorem popDedented_zero : ∀ stack : List (String × Nat), popDedented 0 stack = []
  | [] => rfl
  | (c, i) :: rest => by simp [popDedented, popDedented_zero rest]

theorem pyStep_empty_line (st : List SymbolInfo × List (String × Nat)) (idx : Nat) :
    pyStep st (idx, "") = (st.1, []) := by
  obtain ⟨a, b⟩ := st
  have h : pyStep (a, b) (idx, "") = (a, popDedented 0 b) := rfl
  rw [h, popDedented_zero]

theorem pyStep_def_on_empty_stack (symbols : List SymbolInfo) (idx : Nat)
    (line : String) (fname : String)
    (hclass : matchPyClass line = none) (hdef : matchPyDef line = some fname) :
    pyStep (symbols, []) (idx, line)
      = (symbols ++ [⟨fname, "function", idx, idx⟩], []) := by
  unfold pyStep
  simp [hclass, hdef, popDedented]

/-- C9: in indentation-scoped extraction a completely empty line has
indentation width 0, so it pops the whole class stack; a `def` processed
with an empty class stack is recorded unqualified; hence in the concrete
example the method after the blank line is recorded as `m2`, not `A.m2`,
although it is lexically inside the class body. -/
theorem C9_blank_line_pops_scope :
    (∀ (st : List SymbolInfo × List (String × Nat)) (idx : Nat),
        pyStep st (idx, "") = (st.1, []))
      ∧ (∀ (symbols : List SymbolInfo) (idx : Nat) (line fname : String),
          matchPyClass line = none → matchPyDef line = some fname →
          pyStep (symbols, []) (idx, line)
            = (symbols ++ [⟨fname, "function", idx, idx⟩], []))
      ∧ _extract_python_symbols pyBlankLineExample
          = [⟨"A", "class", 1, 1⟩, ⟨"A.m1", "function", 2, 2⟩,
             ⟨"m2", "function", 4, 4⟩] :=
  ⟨pyStep_empty_line, pyStep_def_on_empty_stack, rfl⟩

theorem C9_blank_line_pops_scope_witness :
    pyStep ([], []) (4, "    def m2(self):")
      = ([(⟨"m2", "function", 4, 4⟩ : SymbolInfo)], []) :=
  C9_blank_line_pops_scope.2.1 [] 4 "    def m2(self):" "m2" (by decide) (by decide)


theorem fillEndsPass_head_start :
    ∀ (s : SymbolInfo) (rest : List SymbolInfo) (total : Nat),
      (fillEndsPass (s :: rest) total).head?.map SymbolInfo.line_start
        = some s.line_start
  | _, [], _ => rfl
  | _, _ :: _, _ => rfl

theorem fillEndsPass_cons_ne_nil :
    ∀ (s : SymbolInfo) (rest : List SymbolInfo) (total : Nat),
      fillEndsPass (s :: rest) total ≠ []
  | _, [], _ => by simp [fillEndsPass]
  | _, _ :: _, _ => by simp [fillEndsPass]

theorem fillEndsPass_chain :
    ∀ (l : List SymbolInfo) (total : Nat),
      List.Chain' (fun a b => a.line_end = max a.line_start (b.line_start - 1))
        (fillEndsPass l total)
  | [], _ => by simp [fillEndsPass]
  | [s], _ => by simp [fillEndsPass]
  | s :: t :: rest, total => by
    rw [fillEndsPass, List.chain'_cons']
    refine ⟨?_, fillEndsPass_chain (t :: rest) total⟩
    intro b hb
    have hh := fillEndsPass_head_start t rest total
    rw [Option.mem_def] at hb
    rw [hb] at hh
    have hh2 : b.line_start = t.line_start := by simpa using hh
    simp [hh2]

theorem fillEndsPass_last :
    ∀ (l : List SymbolInfo) (total : Nat),
      ∀ x ∈ (fillEndsPass l total).getLast?, x.line_end = total
  | [], total => by simp [fillEndsPass]
  | [s], total => by simp [fillEndsPass]
  | s :: t :: rest, total => by
    intro x hx
    rw [fillEndsPass] at hx
    cases hfp : fillEndsPass (t :: rest) total with
    | nil => exact absurd hfp (fillEndsPass_cons_ne_nil t rest total)
    | cons y ys =>
      rw [hfp, List.getLast?_cons_cons] at hx
      exact fillEndsPass_last (t :: rest) total x (by rw [hfp]; exact hx)

theorem fillEndsPass_map_start :
    ∀ (l : List SymbolInfo) (total : Nat),
      (fillEndsPass l total).map SymbolInfo.line_start = l.map SymbolInfo.line_start
  | [], _ => rfl
  | [s], _ => rfl
  | s :: t :: rest, total => by
    rw [fillEndsPass]
    simp only [List.map_cons]
    rw [fillEndsPass_map_start (t :: rest) total]
    rfl

/-- C7: after the fill-in pass on a list already sorted by start line,
consecutive symbols satisfy `end = max(start, next.start - 1)`, the last
symbol's end is the file's total line count, start lines are unchanged,
and in particular starts 1, 10, 25 in a 30-line file receive ends 9, 24,
30. -/
theorem C7_fill_symbol_line_ends_spec (symbols : List SymbolInfo) (total : Nat)
    (hsorted : symbols.Pairwise fun a b => a.line_start ≤ b.line_start) :
    List.Chain' (fun a b => a.line_end = max a.line_start (b.line_start - 1))
        (_fill_symbol_line_ends symbols total)
      ∧ (∀ x ∈ (_fill_symbol_line_ends symbols total).getLast?, x.line_end = total)
      ∧ (_fill_symbol_line_ends symbols total).map SymbolInfo.line_start
          = symbols.map SymbolInfo.line_start
      ∧ _fill_symbol_line_ends
          [⟨"a", "function", 1, 1⟩, ⟨"b", "function", 10, 10⟩,
           ⟨"c", "function", 25, 25⟩] 30
          = [⟨"a", "function", 1, 9⟩, ⟨"b", "function", 10, 24⟩,
             ⟨"c", "function", 25, 30⟩] := by
  have hsort_eq : symbols.mergeSort startLE = symbols :=
    List.mergeSort_of_sorted (hsorted.imp fun h => by simpa [startLE] using h)
  have hconcrete :
      ([⟨"a", "function", 1, 1⟩, ⟨"b", "function", 10, 10⟩,
        ⟨"c", "function", 25, 25⟩] : List SymbolInfo).mergeSort startLE
        = [⟨"a", "function", 1, 1⟩, ⟨"b", "function", 10, 10⟩,
           ⟨"c", "function", 25, 25⟩] :=
    List.mergeSort_of_sorted (by decide)
  unfold _fill_symbol_line_ends
  rw [hsort_eq]
  refine ⟨fillEndsPass_chain symbols total, fillEndsPass_last symbols total,
    fillEndsPass_map_start symbols total, ?_⟩
  rw [hconcrete]
  rfl

theorem C7_fill_symbol_line_ends_spec_witness :
    _fill_symbol_line_ends
        [⟨"a", "function", 1, 1⟩, ⟨"b", "function", 10, 10⟩,
         ⟨"c", "function", 25, 25⟩] 30
      = [⟨"a", "function", 1, 9⟩, ⟨"b", "function", 10, 24⟩,
         ⟨"c", "function", 25, 30⟩] :=
  (C7_fill_symbol_line_ends_spec
    [⟨"a", "function", 1, 1⟩, ⟨"b", "function", 10, 10⟩,
     ⟨"c", "function", 25, 25⟩] 30 (by decide)).2.2.2

theorem filterMap_all_none {α β : Type} (f : α → Option β) (l : List α)
    (h : ∀ a, f a = none) : l.filterMap f = [] := by
  induction l with
  | nil => rfl
  | cons x xs ih => rw [List.filterMap_cons, h x]; exact ih

/-- C8: with the per-chunk language-model call modelled as a fallible
function, a candidate whose every chunk call fails contributes no
`FileSummary`, while the other candidate of a two-file set whose chunks
all succeed contributes exactly one; the run completes with exactly that
one summary. -/
theorem C8_soft_failure_isolation (tok : String → Nat) (maxTokens : Nat)
    (readText : FileCandidate → String)
    (extractSymbols : FileCandidate → List SymbolInfo)
    (call : FileCandidate → CodeChunk → Option String) (c1 c2 : FileCandidate)
    (hfail : ∀ ch, call c1 ch = none)
    (hok : ∀ ch, (call c2 ch).isSome)
    (hchunks : _chunk_text tok maxTokens (readText c2) ≠ []) :
    (summarize_candidates tok maxTokens readText extractSymbols call [c1, c2]).map
        FileSummary.relative_path = [c2.relative_path] := by
  have h1 : summarize_one tok maxTokens readText extractSymbols call c1 = none := by
    simp only [summarize_one]
    have hz : (_chunk_text tok maxTokens (readText c1)).filterMap (call c1) = [] :=
      filterMap_all_none _ _ hfail
    rw [hz]
    simp
  have h2 : summarize_one tok maxTokens readText extractSymbols call c2
      = some ⟨c2.relative_path, c2.language,
          _combine_chunk_summaries
            ((_chunk_text tok maxTokens (readText c2)).filterMap (call c2)),
          extractSymbols c2⟩ := by
    simp only [summarize_one]
    cases hc : _chunk_text tok maxTokens (readText c2) with
    | nil => exact absurd hc hchunks
    | cons x xs =>
      obtain ⟨y, hy⟩ := Option.isSome_iff_exists.mp (hok x)
      rw [List.filterMap_cons, hy]
      simp
  unfold summarize_candidates
  rw [List.filterMap_cons, h1, List.filterMap_cons, h2, List.filterMap_nil]
  rfl

theorem C8_soft_failure_isolation_witness :
    (summarize_candidates lengthTok 100 demoReadText (fun _ => []) demoCall
        [demoFailCandidate, demoOkCandidate]).map FileSummary.relative_path
      = [demoOkCandidate.relative_path] :=
  C8_soft_failure_isolation lengthTok 100 demoReadText (fun _ => []) demoCall
    demoFailCandidate demoOkCandidate (fun _ => rfl) (fun _ => rfl) (by decide)

theorem splitlinesAux_ne_nil (cs : List Char) (acc : List Char)
    (h : cs ≠ [] ∨ acc ≠ []) : splitlinesAux cs acc ≠ [] := by
  induction cs, acc using splitlinesAux.induct with
  | case1 acc hemp =>
    rcases h with h | h
    · exact absurd rfl h
    · exact absurd (List.isEmpty_iff.mp hemp) h
  | case2 acc hemp => simp [splitlinesAux, hemp]
  | case3 rest acc ih => simp [splitlinesAux]
  | case4 rest acc hnf ih => simp [splitlinesAux]
  | case5 rest acc ih => simp [splitlinesAux]
  | case6 c rest acc h1 h2 h3 ih =>
    have hr : splitlinesAux (c :: rest) acc = splitlinesAux rest (c :: acc) := by
      simp [splitlinesAux, h1, h2, h3]
    rw [hr]
    exact ih (Or.inr (by simp))

theorem splitlines_ne_nil (s : String) (h : s ≠ "") : splitlines s ≠ [] := by
  apply splitlinesAux_ne_nil
  left
  intro hd
  apply h
  cases s with
  | mk data =>
    simp at hd
    rw [hd]

theorem coversRange_nil (lo hi : Nat) (h : lo = hi + 1) : coversRange lo hi [] := h

theorem coversRange_cons (t : String) (s e lo hi : Nat) (rest : List CodeChunk)
    (h1 : s = lo) (h2 : lo ≤ e) (h3 : e ≤ hi)
    (h4 : coversRange (e + 1) hi rest) :
    coversRange lo hi (⟨t, s, e⟩ :: rest) := ⟨h1, h2, h3, h4⟩

theorem chunkAux_covers (tok : String → Nat) (maxTokens : Nat) :
    ∀ (rest : List String) (n : Nat) (cur : List String) (curTok start total : Nat),
      cur ≠ [] → 1 ≤ start → start < n → total = (n - 1) + rest.length →
      coversRange start total (chunkAux tok maxTokens total rest n cur curTok start)
  | [], n, cur, curTok, start, total, hcur, h1, h2, htot => by
    obtain ⟨x, xs, hx⟩ := List.exists_cons_of_ne_nil hcur
    subst hx
    have htot2 : total = n - 1 := by simpa using htot
    show coversRange start total
      [⟨String.intercalate "\n" (x :: xs), start, total⟩]
    exact coversRange_cons _ start total start total [] rfl (by omega)
      (Nat.le_refl total) (coversRange_nil _ _ rfl)
  | line :: rest2, n, cur, curTok, start, total, hcur, h1, h2, htot => by
    have htot2 : total = (n - 1) + (rest2.length + 1) := by simpa using htot
    simp only [chunkAux]
    by_cases hclose :
        (!cur.isEmpty && decide (maxTokens < curTok + tok (formatLine n line ++ "\n"))) = true
    · rw [if_pos hclose]
      show coversRange start total
        (⟨String.intercalate "\n" cur, start, n - 1⟩
          :: chunkAux tok maxTokens total rest2 (n + 1) [formatLine n line]
               (tok (formatLine n line ++ "\n")) n)
      refine coversRange_cons _ start (n - 1) start total _ rfl (by omega)
        (by omega) ?_
      have hn : (n - 1) + 1 = n := by omega
      rw [hn]
      exact chunkAux_covers tok maxTokens rest2 (n + 1)
        [formatLine n line] (tok (formatLine n line ++ "\n")) n total
        (by simp) (by omega) (by omega) (by omega)
    · rw [if_neg hclose]
      have hne : cur.isEmpty = false := by
        cases cur with
        | nil => exact absurd rfl hcur
        | cons a l => rfl
      rw [hne]
      simp only [Bool.false_eq_true, if_false]
      exact chunkAux_covers tok maxTokens rest2 (n + 1)
        (cur ++ [formatLine n line]) (curTok + tok (formatLine n line ++ "\n"))
        start total (by simp) h1 (by omega) (by omega)

theorem chunk_text_covers (tok : String → Nat) (maxTokens : Nat) (text : String)
    (h : text ≠ "") :
    coversRange 1 (splitlines text).length (_chunk_text tok maxTokens text) := by
  unfold _chunk_text
  rw [if_neg h]
  cases hl : splitlines text with
  | nil => exact absurd hl (splitlines_ne_nil text h)
  | cons line rest =>
    have hstep : chunkAux tok maxTokens (line :: rest).length (line :: rest) 1 [] 0 1
        = chunkAux tok maxTokens (line :: rest).length rest 2
            [formatLine 1 line] (tok (formatLine 1 line ++ "\n")) 1 := by
      simp [chunkAux]
    show coversRange 1 (line :: rest).length
      (chunkAux tok maxTokens (line :: rest).length (line :: rest) 1 [] 0 1)
    rw [hstep]
    exact chunkAux_covers tok maxTokens rest 2 [formatLine 1 line] _ 1 _
      (by simp) (Nat.le_refl 1) (by omega) (by simp [Nat.add_comm])

/-- C3: for every token counter and budget, the chunker returns zero
chunks on the empty input text, and on non-empty text its chunks
partition the inclusive line range `[1, total_lines]` exactly:
ascending, contiguous, no gaps, no overlaps. -/
theorem C3_chunk_partition (tok : String → Nat) (maxTokens : Nat) (text : String) :
    (text = "" → _chunk_text tok maxTokens text = [])
      ∧ (text ≠ "" →
          coversRange 1 (splitlines text).length (_chunk_text tok maxTokens text)) := by
  constructor
  · intro h
    simp [_chunk_text, h]
  · intro h
    exact chunk_text_covers tok maxTokens text h

theorem C3_chunk_partition_witness :
    coversRange 1 (splitlines "ab\ncd").length (_chunk_text lengthTok 5 "ab\ncd") :=
  (C3_chunk_partition lengthTok 5 "ab\ncd").2 (by decide)

theorem drop_cons_getD {α : Type} (l : List α) (k : Nat) (a : α) (t : List α) (d : α)
    (h : l.drop k = a :: t) : l.getD k d = a ∧ l.drop (k + 1) = t := by
  induction k generalizing l with
  | zero =>
    rw [List.drop_zero] at h
    subst h
    simp
  | succ k ih =>
    cases l with
    | nil => simp at h
    | cons b l' =>
      rw [List.drop_succ_cons] at h
      obtain ⟨h1, h2⟩ := ih l' h
      exact ⟨by simpa using h1, by simpa using h2⟩

theorem rangeLines_length (lines : List String) (lo hi : Nat) :
    (rangeLines lines lo hi).length = hi + 1 - lo := by
  simp [rangeLines]

theorem rangeLines_self (lines : List String) (n : Nat) :
    rangeLines lines n n = [decorate lines n] := by
  unfold rangeLines
  have h : n + 1 - n = 1 := by omega
  rw [h]
  simp

theorem rangeLines_concat (lines : List String) (start n : Nat)
    (h1 : start ≤ n) (h2 : 1 ≤ n) :
    rangeLines lines start (n - 1) ++ [decorate lines n] = rangeLines lines start n := by
  unfold rangeLines
  have hc1 : (n - 1) + 1 - start = n - start := by omega
  have hc2 : n + 1 - start = (n - start) + 1 := by omega
  rw [hc1, hc2, List.range'_1_concat, List.map_append]
  have hn : start + (n - start) = n := by omega
  rw [hn]
  rfl

theorem chunkAux_elems (tok : String → Nat) (maxTokens : Nat) (allLines : List String) :
    ∀ (rest : List String) (n : Nat) (cur : List String) (curTok start : Nat),
      cur ≠ [] → 1 ≤ start → start < n →
      rest = allLines.drop (n - 1) → n - 1 ≤ allLines.length →
      cur = rangeLines allLines start (n - 1) →
      curTok = (cur.map fun s => tok (s ++ "\n")).sum →
      (curTok ≤ maxTokens ∨ cur.length = 1) →
      ∀ c ∈ chunkAux tok maxTokens allLines.length rest n cur curTok start,
        chunkGood tok maxTokens allLines c
  | [], n, cur, curTok, start, hcur, h1, h2, hrest, hle, hcureq, htok, hbud => by
    intro c hc
    obtain ⟨x, xs, hx⟩ := List.exists_cons_of_ne_nil hcur
    have hnl : allLines.length ≤ n - 1 := by
      by_contra hcon
      push_neg at hcon
      have : allLines.drop (n - 1) ≠ [] := by
        intro hd
        have := List.drop_eq_nil_iff.mp hd
        omega
      exact this hrest.symm
    have htotal : allLines.length = n - 1 := by omega
    rw [hx] at hc
    simp only [chunkAux, List.isEmpty_cons, Bool.false_eq_true, if_false,
      List.mem_singleton] at hc
    rw [← hx] at hc
    subst hc
    constructor
    · -- token bound
      show chunkTokens tok allLines ⟨String.intercalate "\n" cur, start, allLines.length⟩
          ≤ maxTokens ∨ _
      by_cases hok : curTok ≤ maxTokens
      · left
        show ((rangeLines allLines start allLines.length).map fun s => tok (s ++ "\n")).sum
            ≤ maxTokens
        rw [htotal, ← hcureq, ← htok]
        exact hok
      · right
        have hlen : cur.length = 1 := by
          rcases hbud with hb | hb
          · exact absurd hb hok
          · exact hb
        have hstart : start = n - 1 := by
          rw [hcureq, rangeLines_length] at hlen
          omega
        constructor
        · show start = allLines.length
          omega
        · show maxTokens < tok (decorate allLines start ++ "\n")
          have hcur1 : cur = [decorate allLines start] := by
            rw [hcureq, hstart, ← hstart]
            rw [hstart]
            exact rangeLines_self allLines (n - 1)
          rw [hcur1] at htok
          simp at htok
          omega
    · -- text equality
      show String.intercalate "\n" cur
          = String.intercalate "\n" (rangeLines allLines start allLines.length)
      rw [htotal, ← hcureq]
  | line :: rest2, n, cur, curTok, start, hcur, h1, h2, hrest, hle, hcureq, htok, hbud => by
    intro c hc
    have hlt : n - 1 < allLines.length := by
      by_contra hcon
      push_neg at hcon
      have hdz : allLines.drop (n - 1) = [] := List.drop_eq_nil_of_le hcon
      rw [hdz] at hrest
      exact List.noConfusion hrest
    obtain ⟨hget, hdrop⟩ := drop_cons_getD allLines (n - 1) line rest2 "" hrest.symm
    have hn1 : (n - 1) + 1 = n := by omega
    rw [hn1] at hdrop
    have hdec : decorate allLines n = formatLine n line := by
      unfold decorate
      rw [hget]
    simp only [chunkAux] at hc
    by_cases hclose :
        (!cur.isEmpty && decide (maxTokens < curTok + tok (formatLine n line ++ "\n"))) = true
    · rw [if_pos hclose] at hc
      rcases List.mem_cons.mp hc with hch | hch
      · -- the closed chunk
        subst hch
        have hcond : maxTokens < curTok + tok (formatLine n line ++ "\n") := by
          have h' := hclose
          simp only [Bool.and_eq_true, decide_eq_true_eq] at h'
          exact h'.2
        constructor
        · by_cases hok : curTok ≤ maxTokens
          · left
            show ((rangeLines allLines start (n - 1)).map fun s => tok (s ++ "\n")).sum
                ≤ maxTokens
            rw [← hcureq, ← htok]
            exact hok
          · right
            have hlen : cur.length = 1 := by
              rcases hbud with hb | hb
              · exact absurd hb hok
              · exact hb
            have hstart : start = n - 1 := by
              rw [hcureq, rangeLines_length] at hlen
              omega
            refine ⟨hstart, ?_⟩
            show maxTokens < tok (decorate allLines start ++ "\n")
            have hcur1 : cur = [decorate allLines start] := by
              rw [hcureq, hstart]
              exact rangeLines_self allLines (n - 1)
            rw [hcur1] at htok
            simp at htok
            omega
        · show String.intercalate "\n" cur
            = String.intercalate "\n" (rangeLines allLines start (n - 1))
          rw [← hcureq]
      · -- the recursive chunks
        refine chunkAux_elems tok maxTokens allLines rest2 (n + 1)
          [formatLine n line] (tok (formatLine n line ++ "\n")) n
          (by simp) (by omega) (by omega) ?_ ?_ ?_ (by simp) (Or.inr rfl) c hch
        · rw [Nat.add_sub_cancel]
          exact hdrop.symm
        · rw [Nat.add_sub_cancel]
          omega
        · rw [Nat.add_sub_cancel, rangeLines_self, hdec]
    · rw [if_neg hclose] at hc
      have hne : cur.isEmpty = false := by
        cases cur with
        | nil => exact absurd rfl hcur
        | cons a l => rfl
      rw [hne] at hc
      simp only [Bool.false_eq_true, if_false] at hc
      have hcond : ¬(maxTokens < curTok + tok (formatLine n line ++ "\n")) := by
        intro hx
        apply hclose
        rw [hne]
        simp [hx]
      refine chunkAux_elems tok maxTokens allLines rest2 (n + 1)
        (cur ++ [formatLine n line]) (curTok + tok (formatLine n line ++ "\n")) start
        (by simp) h1 (by omega) ?_ ?_ ?_ ?_ (Or.inl (by omega)) c hc
      · rw [Nat.add_sub_cancel]
        exact hdrop.symm
      · rw [Nat.add_sub_cancel]
        omega
      · rw [Nat.add_sub_cancel, ← rangeLines_concat allLines start n (by omega) (by omega),
          ← hcureq, hdec]
      · rw [List.map_append, List.sum_append, ← htok]
        simp

theorem chunk_text_good (tok : String → Nat) (maxTokens : Nat) (text : String) :
    ∀ c ∈ _chunk_text tok maxTokens text,
      chunkGood tok maxTokens (splitlines text) c := by
  intro c hc
  unfold _chunk_text at hc
  by_cases h : text = ""
  · rw [if_pos h] at hc
    simp at hc
  · rw [if_neg h] at hc
    cases hl : splitlines text with
    | nil => exact absurd hl (splitlines_ne_nil text h)
    | cons line rest =>
      rw [hl] at hc
      have hstep : chunkAux tok maxTokens (line :: rest).length (line :: rest) 1 [] 0 1
          = chunkAux tok maxTokens (line :: rest).length rest 2
              [formatLine 1 line] (tok (formatLine 1 line ++ "\n")) 1 := by
        simp [chunkAux]
      rw [hstep] at hc
      exact chunkAux_elems tok maxTokens (line :: rest) rest 2
        [formatLine 1 line] (tok (formatLine 1 line ++ "\n")) 1
        (by simp) (Nat.le_refl 1) (by omega) rfl (by simp)
        (by rw [rangeLines_self]; rfl) (by simp) (Or.inr rfl) c hc

/-- C4: every chunk emitted by the chunker is `chunkGood`: its decorated
token total is within the budget unless it consists of exactly one line
whose own decorated cost exceeds the budget, and its text carries every
decorated line of its range verbatim; together with the partition of the
full line range (second conjunct) no line is ever dropped. -/
theorem C4_chunk_token_budget (tok : String → Nat) (maxTokens : Nat) (text : String) :
    (∀ c ∈ _chunk_text tok maxTokens text,
        chunkGood tok maxTokens (splitlines text) c)
      ∧ (text ≠ "" →
          coversRange 1 (splitlines text).length (_chunk_text tok maxTokens text)) :=
  ⟨chunk_text_good tok maxTokens text, chunk_text_covers tok maxTokens text⟩

theorem C4_chunk_token_budget_witness :
    chunkGood lengthTok 5 (splitlines "ab\ncd") ⟨"0001: ab", 1, 1⟩ :=
  (C4_chunk_token_budget lengthTok 5 "ab\ncd").1 ⟨"0001: ab", 1, 1⟩ (by decide)

/-- C5: candidate selection returns at most `max_candidate_files`
entries, and every returned candidate has size strictly positive and at
most `max_file_bytes`, an extension recognised by `SOURCE_EXTENSIONS`
(whose language it carries) and not in `SKIP_EXTENSIONS`, and no path
segment in `SKIP_DIR_NAMES` at any depth. -/
theorem C5_selection_filters (rootParts : List String) (entries : List FsEntry)
    (settings : Settings) :
    (collect_source_candidates rootParts entries settings).length
        ≤ settings.max_candidate_files
      ∧ ∀ c ∈ collect_source_candidates rootParts entries settings,
          0 < c.size_bytes ∧ c.size_bytes ≤ settings.max_file_bytes
            ∧ SOURCE_EXTENSIONS.lookup (extOfParts c.relative_path) = some c.language
            ∧ SKIP_EXTENSIONS.contains (extOfParts c.relative_path) = false
            ∧ ∀ part ∈ c.relative_path, SKIP_DIR_NAMES.contains part = false := by
  constructor
  · unfold collect_source_candidates
    rw [List.length_take]
    exact Nat.min_le_left _ _
  · intro c hc
    unfold collect_source_candidates at hc
    have hc2 : c ∈ (candidate_pool rootParts entries settings).mergeSort weightGE :=
      List.take_subset _ _ hc
    rw [List.mem_mergeSort] at hc2
    unfold candidate_pool at hc2
    rw [List.mem_filterMap] at hc2
    obtain ⟨e, he, hfe⟩ := hc2
    unfold iter_source_files at he
    rw [List.mem_filter] at he
    obtain ⟨-, hcond⟩ := he
    simp only [Bool.and_eq_true, Bool.not_eq_true'] at hcond
    obtain ⟨⟨-, hskipext⟩, hskipdir⟩ := hcond
    split at hfe
    · exact absurd hfe (by simp)
    · rename_i hsize
      push_neg at hsize
      obtain ⟨hs0, hsmax⟩ := hsize
      split at hfe
      · exact absurd hfe (by simp)
      · rename_i lang hlang
        rw [Option.some.injEq] at hfe
        subst hfe
        refine ⟨Nat.pos_of_ne_zero hs0, hsmax, ?_, ?_, ?_⟩
        · exact hlang
        · exact hskipext
        · intro part hpart
          have hall := List.any_eq_false.mp hskipdir
          have : part ∈ rootParts ++ e.relParts := List.mem_append_right _ hpart
          simpa using hall part this

theorem C5_selection_filters_witness :
    0 < (⟨["main.py"], "Python", 2000,
            compute_weight ["main.py"] 2000 "Python"⟩ : FileCandidate).size_bytes
      ∧ (⟨["main.py"], "Python", 2000,
            compute_weight ["main.py"] 2000 "Python"⟩ : FileCandidate).size_bytes
          ≤ (Settings.mk 5 4000).max_file_bytes
      ∧ SOURCE_EXTENSIONS.lookup (extOfParts ["main.py"]) = some "Python"
      ∧ SKIP_EXTENSIONS.contains (extOfParts ["main.py"]) = false
      ∧ ∀ part ∈ (["main.py"] : List String),
          SKIP_DIR_NAMES.contains part = false := by
  have hmem : (⟨["main.py"], "Python", 2000,
        compute_weight ["main.py"] 2000 "Python"⟩ : FileCandidate)
      ∈ collect_source_candidates ["repo"] [⟨["main.py"], 2000, true⟩] ⟨5, 4000⟩ := by
    have hpool : candidate_pool ["repo"] [⟨["main.py"], 2000, true⟩] ⟨5, 4000⟩
        = [⟨["main.py"], "Python", 2000, compute_weight ["main.py"] 2000 "Python"⟩] := rfl
    unfold collect_source_candidates
    rw [hpool, List.mergeSort_singleton]
    exact List.mem_singleton.mpr rfl
  exact (C5_selection_filters ["repo"] [⟨["main.py"], 2000, true⟩] ⟨5, 4000⟩).2 _ hmem

theorem weightGE_trans (a b c : FileCandidate) (hab : weightGE a b = true)
    (hbc : weightGE b c = true) : weightGE a c = true := by
  simp only [weightGE, decide_eq_true_eq] at *
  exact le_trans hbc hab

theorem weightGE_total (a b : FileCandidate) : weightGE a b || weightGE b a := by
  simp only [weightGE]
  rcases le_total a.weight b.weight with h | h <;> simp [h]

theorem language_bonus_pos (language : String) : 0 < language_bonus language := by
  unfold language_bonus
  split <;> norm_num

theorem special_bonus_pos (relParts : List String) : 0 < special_bonus relParts := by
  unfold special_bonus
  split <;> norm_num

theorem size_score_pos (size : Nat) : 0 < size_score size := by
  unfold size_score
  positivity

theorem size_score_strict_anti (s1 s2 : Nat) (h : s1 < s2) :
    size_score s2 < size_score s1 := by
  unfold size_score
  have hc : (s1 : ℚ) < (s2 : ℚ) := by exact_mod_cast h
  exact one_div_lt_one_div_of_lt (by positivity) (by linarith)

theorem depth_penalty_strict (d1 d2 : Nat) (h : d1 < d2) :
    (1 : ℚ) / (1 + (d2 : ℚ)) < 1 / (1 + (d1 : ℚ)) := by
  have hc : (d1 : ℚ) < (d2 : ℚ) := by exact_mod_cast h
  exact one_div_lt_one_div_of_lt (by positivity) (by linarith)

/-- C6: the weight is strictly decreasing in size and, when the special
bonus agrees and everything else is fixed, strictly decreasing in depth;
the selection output is sorted non-increasing by weight; and any
equal-weight subsequence of the discovery-ordered pool survives the sort
in discovery order (stability). -/
theorem C6_weight_ordering :
    (∀ (relParts : List String) (language : String) (s1 s2 : Nat), s1 < s2 →
        compute_weight relParts s2 language < compute_weight relParts s1 language)
      ∧ (∀ (rel1 rel2 : List String) (language : String) (size : Nat),
          special_bonus rel1 = special_bonus rel2 →
          path_depth rel1 < path_depth rel2 →
          compute_weight rel2 size language < compute_weight rel1 size language)
      ∧ (∀ (rootParts : List String) (entries : List FsEntry) (settings : Settings),
          (collect_source_candidates rootParts entries settings).Pairwise
            fun a b => b.weight ≤ a.weight)
      ∧ (∀ (rootParts : List String) (entries : List FsEntry) (settings : Settings)
            (sub : List FileCandidate),
          sub.Pairwise (fun a b => a.weight = b.weight) →
          sub.Sublist (candidate_pool rootParts entries settings) →
          sub.Sublist ((candidate_pool rootParts entries settings).mergeSort weightGE)) := by
  refine ⟨?_, ?_, ?_, ?_⟩
  · intro relParts language s1 s2 h
    unfold compute_weight
    have h2 := size_score_strict_anti s1 s2 h
    have hd : (0 : ℚ) < 1 / (1 + (path_depth relParts : ℚ)) := by positivity
    have hl := language_bonus_pos language
    have hs := special_bonus_pos relParts
    exact mul_lt_mul_of_pos_right
      (mul_lt_mul_of_pos_right (mul_lt_mul_of_pos_left h2 hd) hl) hs
  · intro rel1 rel2 language size hsb hdep
    unfold compute_weight
    rw [← hsb]
    have hd := depth_penalty_strict (path_depth rel1) (path_depth rel2) hdep
    have hss := size_score_pos size
    have hl := language_bonus_pos language
    have hs := special_bonus_pos rel1
    exact mul_lt_mul_of_pos_right
      (mul_lt_mul_of_pos_right (mul_lt_mul_of_pos_right hd hss) hl) hs
  · intro rootParts entries settings
    unfold collect_source_candidates
    refine List.Pairwise.sublist (List.take_sublist _ _) ?_
    have hs := List.sorted_mergeSort weightGE_trans weightGE_total
      (candidate_pool rootParts entries settings)
    exact hs.imp fun h => by simpa [weightGE] using h
  · intro rootParts entries settings sub hw hsub
    refine List.sublist_mergeSort weightGE_trans weightGE_total ?_ hsub
    exact hw.imp fun h => by simp [weightGE, h]

theorem C6_weight_ordering_witness :
    compute_weight ["a.py"] 2000 "Python" < compute_weight ["a.py"] 0 "Python"
      ∧ compute_weight ["sub", "dir", "a.py"] 64 "Python"
          < compute_weight ["a.py"] 64 "Python" :=
  ⟨C6_weight_ordering.1 ["a.py"] "Python" 0 2000 (by decide),
   C6_weight_ordering.2.1 ["a.py"] ["sub", "dir", "a.py"] "Python" 64 rfl (by decide)⟩
